import Mathlib

/-!
Verification of the similarity-scoring engine of the adversarial gene
expression repository (`src/utils.py`), as a shallow embedding in Lean.

Modelling conventions:

* Real-valued numpy arithmetic is embedded over `ℝ`.  An expression matrix
  with `n` samples and `g` genes is a function `ℕ → ℕ → ℝ` (sample, gene ↦
  value) together with explicit dimensions; 1-D numpy arrays are `List ℝ`.
* Division in `ℝ` is Lean's total division (`x / 0 = 0`).  Wherever the
  Python code would produce a NaN (zero standard deviation, zero vector
  norm, zero weight sum) the claims are stated under hypotheses that rule
  those denominators out, so no theorem relies on the junk value `x / 0 = 0`.
* Python exceptions (`ZeroDivisionError` from an integer `0 / 0`, a failing
  `assert`) are embedded with `Except PyErr`.
* External library collaborators that are not code of this repository
  (`scipy.cluster.hierarchy.linkage`, `scipy.cluster.hierarchy.cophenet`,
  `scipy.stats.mannwhitneyu`, `statsmodels`' `multipletests`) are taken as
  oracle parameters: the embedded functions receive them as arguments, the
  way `utils.py` receives them as imported functions.
* Gene symbols are an arbitrary type with decidable equality (the Python
  code uses strings; nothing in the code depends on more than equality).
-/

namespace AdvGene

noncomputable section

/-- Sum of a list of reals; embeds `np.sum` / the implicit sums of `np.dot`. -/
def npSum (v : List ℝ) : ℝ := v.sum

/-- Embeds `np.mean(a, axis=0)` applied to a 1-D array. -/
def npMean (v : List ℝ) : ℝ := npSum v / (v.length : ℝ)

/-- Embeds `np.std(a, axis=0) ** 2` on a 1-D array: the population variance
(mean of squared deviations). -/
def npVar (v : List ℝ) : ℝ := npSum (v.map (fun a => (a - npMean v) ^ 2)) / (v.length : ℝ)

/-- Embeds `np.std(a, axis=0)` on a 1-D array (population standard deviation). -/
def npStd (v : List ℝ) : ℝ := Real.sqrt (npVar v)

/-- Embeds `np.dot(x, y)` for two 1-D arrays of equal length. -/
def npDot (x y : List ℝ) : ℝ := npSum ((x.zip y).map (fun p => p.1 * p.2))

/-- Embeds `np.linalg.norm(x)` for a 1-D array. -/
def npNorm (x : List ℝ) : ℝ := Real.sqrt (npDot x x)

/-- Column `j` of an expression matrix with `n` samples, as a list. -/
def col (e : ℕ → ℕ → ℝ) (n j : ℕ) : List ℝ := (List.range n).map (fun s => e s j)

/-- Embeds the inner `standardize` of `pearson_correlation` in `utils.py`:
subtract the column mean and divide by the column standard deviation. -/
def standardize (e : ℕ → ℕ → ℝ) (n : ℕ) : ℕ → ℕ → ℝ :=
  fun s j => (e s j - npMean (col e n j)) / npStd (col e n j)

/-- Embeds `pearson_correlation(x, y)` from `utils.py` for 2-D inputs:
`np.dot(x_.T, y_) / x.shape[0]` after standardizing each column.  The
source asserts `x.shape[0] == y.shape[0]`; the embedding takes the single
shared sample count `n`, i.e. it models the post-assertion behaviour. -/
def pearson_correlation (x y : ℕ → ℕ → ℝ) (n : ℕ) : ℕ → ℕ → ℝ :=
  fun i j => npSum ((List.range n).map (fun s => standardize x n s i * standardize y n s j)) / (n : ℝ)

/-- Embeds `pearson_correlation(x, y)` from `utils.py` applied to two 1-D
arrays of the same length (as `gamma_coefficients` and `compare_cophenetic`
do): standardization is over the single axis and `np.dot` of the two
standardized 1-D arrays is a scalar, divided by `x.shape[0]`. -/
def pearson_correlation1 (x y : List ℝ) : ℝ :=
  npDot (x.map (fun a => (a - npMean x) / npStd x))
        (y.map (fun a => (a - npMean y) / npStd y)) / (x.length : ℝ)

/-- Embeds `cosine_similarity(x, y)` from `utils.py`. -/
def cosine_similarity (x y : List ℝ) : ℝ := npDot x y / (npNorm x * npNorm y)

/-- Embeds `upper_diag_list(m_)` from `utils.py` on an `g × g` matrix.  The
source keeps the strict upper triangle (`np.triu(m_, 1)`), overwrites the
diagonal and the lower triangle with NaN, ravels in row-major order and
drops the NaNs; the masking is embedded with `Option`: positions with
`i < j` carry `some (m i j)`, all others `none`, and the final
`filterMap id` drops the `none`s exactly as `m[~np.isnan(m)]` does. -/
def upper_diag_list (g : ℕ) (m : ℕ → ℕ → ℝ) : List ℝ :=
  (((List.range g).map (fun i =>
      (List.range g).map (fun j => if i < j then some (m i j) else none))).flatten).filterMap id

/-- Embeds `correlations_list(x, y, corr_fun)` from `utils.py` with the
default `corr_fun = pearson_correlation` (the only correlation function the
shipped coefficients use): the condensed upper-diagonal list of the `g × g`
correlation matrix. -/
def correlations_list (x y : ℕ → ℕ → ℝ) (n g : ℕ) : List ℝ :=
  upper_diag_list g (pearson_correlation x y n)

variable {α : Type} [DecidableEq α]

/-- Embeds `np.where(gene_symbols == s)[0]`: the ascending list of indices of
`syms` holding the symbol `s`. -/
def idxs_of (s : α) (syms : List α) : List ℕ :=
  (List.range syms.length).filter (fun i => syms.get? i = some s)

/-- Embeds the `tg_idxs` computation of `compute_tf_tg_corrs` and
`find_chip_rates`:
`np.array([np.where(gene_symbols == tg)[0] for tg in tgs if tg in gene_symbols]).ravel()`. -/
def tg_idxs (syms : List α) (tgs : List α) : List ℕ :=
  ((tgs.filter (fun t => t ∈ syms)).map (fun t => idxs_of t syms)).flatten

/-- The eligibility test both `compute_tf_tg_corrs` and `find_chip_rates`
apply to a `(tf, tgs)` entry of the regulatory map:
`tf in gene_symbols and len(tg_idxs) > 0`. -/
def tf_eligible (syms : List α) (p : α × List α) : Prop :=
  p.1 ∈ syms ∧ tg_idxs syms p.2 ≠ []

instance (syms : List α) (p : α × List α) : Decidable (tf_eligible syms p) :=
  inferInstanceAs (Decidable (p.1 ∈ syms ∧ tg_idxs syms p.2 ≠ []))

/-- Embeds column selection `expr[:, idxs]`: column `k` of the submatrix is
column `idxs[k]` of `e`. -/
def cols_of (e : ℕ → ℕ → ℝ) (idxs : List ℕ) : ℕ → ℕ → ℝ :=
  fun s k => e s (idxs.getD k 0)

/-- The TG–TG part of one loop iteration of `compute_tf_tg_corrs`:
`correlations_list(expr_tgs, expr_tgs)` for the TF's present target genes. -/
def tg_tg_entry (e : ℕ → ℕ → ℝ) (n : ℕ) (syms : List α) (tgs : List α) : List ℝ :=
  correlations_list (cols_of e (tg_idxs syms tgs)) (cols_of e (tg_idxs syms tgs)) n
    (tg_idxs syms tgs).length

/-- The TF–TG part of one loop iteration of `compute_tf_tg_corrs`:
`pearson_correlation(expr_tf[:, None], expr_tgs).ravel()`, a row vector with
one correlation per present target.  `np.argwhere(gene_symbols == tf)[0]` is
the first index of `tf` in `syms`. -/
def tf_tg_entry (e : ℕ → ℕ → ℝ) (n : ℕ) (syms : List α) (tf : α) (tgs : List α) : List ℝ :=
  (List.range (tg_idxs syms tgs).length).map
    (fun k => pearson_correlation (fun s _ => e s ((idxs_of tf syms).headD 0))
      (cols_of e (tg_idxs syms tgs)) n 0 k)

/-- Embeds `compute_tf_tg_corrs(expr, gene_symbols, tf_tg, flat=False)` from
`utils.py`.  The regulatory map is its association list in Python dict
iteration order.  The loop appends, for every eligible TF, a TF–TG entry to
the first output list and a TG–TG entry to the second; ineligible TFs leave
both accumulators untouched. -/
def compute_tf_tg_corrs (e : ℕ → ℕ → ℝ) (n : ℕ) (syms : List α) (tftg : List (α × List α)) :
    List (List ℝ) × List (List ℝ) :=
  tftg.foldl (fun acc p =>
    if tf_eligible syms p then
      (acc.1 ++ [tf_tg_entry e n syms p.1 p.2], acc.2 ++ [tg_tg_entry e n syms p.2])
    else acc) ([], [])

/-- Embeds `compute_tf_tg_corrs(..., flat=True)`: the source builds the
grouped lists first and then flattens both. -/
def compute_tf_tg_corrs_flat (e : ℕ → ℕ → ℝ) (n : ℕ) (syms : List α)
    (tftg : List (α × List α)) : List ℝ × List ℝ :=
  ((compute_tf_tg_corrs e n syms tftg).1.flatten, (compute_tf_tg_corrs e n syms tftg).2.flatten)

/-- The `weights_type` argument of `psi_coefficient` and `phi_coefficient`. -/
inductive WeightsType
| nb_genes
| ones
deriving DecidableEq

/-- Python exceptions that the embedded functions can raise. -/
inductive PyErr
| zeroDivisionError
| assertionError
deriving DecidableEq

/-- The weight one loop iteration of `psi_coefficient` uses:
`len(cx)` for `weights_type='nb_genes'`, else `1`. -/
def psi_weight (wt : WeightsType) (cx : List ℝ) : ℝ :=
  match wt with
  | .nb_genes => (cx.length : ℝ)
  | .ones => 1

/-- The accumulator loop of `psi_coefficient`: starting from
`(weights_sum, total_sum) = (0, 0)`, each pair `(cx, cz)` adds its weight to
the first component and `weight * cosine_similarity(cx, cz)` to the second. -/
def psi_sums (pairs : List (List ℝ × List ℝ)) (wt : WeightsType) : ℝ × ℝ :=
  pairs.foldl (fun acc p =>
    (acc.1 + psi_weight wt p.1, acc.2 + psi_weight wt p.1 * cosine_similarity p.1 p.2)) (0, 0)

/-- Embeds `psi_coefficient(tf_tg_x, tf_tg_z, weights_type)` from `utils.py`.
When `zip(tf_tg_x, tf_tg_z)` is empty the loop never runs, both accumulators
are still the Python integer `0`, and `total_sum / weights_sum` raises
`ZeroDivisionError`; otherwise the division is on floats and is returned. -/
def psi_coefficient (tx tz : List (List ℝ)) (wt : WeightsType) : Except PyErr ℝ :=
  if (tx.zip tz).isEmpty then .error .zeroDivisionError
  else .ok ((psi_sums (tx.zip tz) wt).2 / (psi_sums (tx.zip tz) wt).1)

/-- The weight one (unskipped) loop iteration of `phi_coefficient` uses for
`weights_type='nb_genes'`: with `x = len(cx)`, the larger of the two roots
`np.roots([1, 1, -2 * x])` of `w^2 + w - 2x = 0`, namely
`(-1 + sqrt(1 + 8x)) / 2`. -/
def phi_weight (L : ℕ) : ℝ := (-1 + Real.sqrt (1 + 8 * (L : ℝ))) / 2

/-- The weight one loop iteration of `phi_coefficient` uses. -/
def phi_weight_of (wt : WeightsType) (cx : List ℝ) : ℝ :=
  match wt with
  | .nb_genes => phi_weight cx.length
  | .ones => 1

/-- The accumulator loop of `phi_coefficient`: pairs whose `cx` is empty are
skipped (`if len(cx) > 0`), every other pair adds its weight and its
weighted cosine similarity. -/
def phi_sums (pairs : List (List ℝ × List ℝ)) (wt : WeightsType) : ℝ × ℝ :=
  pairs.foldl (fun acc p =>
    if p.1.length > 0 then
      (acc.1 + phi_weight_of wt p.1, acc.2 + phi_weight_of wt p.1 * cosine_similarity p.1 p.2)
    else acc) (0, 0)

/-- Embeds `phi_coefficient(tg_tg_x, tg_tg_z, weights_type)` from `utils.py`.
When every pair of `zip(tg_tg_x, tg_tg_z)` is skipped (all `cx` empty — in
particular when both inputs are empty) both accumulators are still the
Python integer `0` and the final division raises `ZeroDivisionError`. -/
def phi_coefficient (tx tz : List (List ℝ)) (wt : WeightsType) : Except PyErr ℝ :=
  if (tx.zip tz).all (fun p => p.1.isEmpty) then .error .zeroDivisionError
  else .ok ((phi_sums (tx.zip tz) wt).2 / (phi_sums (tx.zip tz) wt).1)

/-- Embeds `list(set(range(nb_genes)) - set(tg_idxs))` from
`find_chip_rates`: the non-target gene indices, in ascending order. -/
def non_tg_idxs (g : ℕ) (tgIdxs : List ℕ) : List ℕ :=
  (List.range g).filter (fun i => i ∉ tgIdxs)

/-- Row `i` of a matrix restricted to the columns `idxs`:
`expr[i, idxs]` as a list. -/
def sample_vals (e : ℕ → ℕ → ℝ) (idxs : List ℕ) (i : ℕ) : List ℝ :=
  idxs.map (fun j => e i j)

/-- The per-sample p-value list one loop iteration of `find_chip_rates`
collects for a TF entry `p`: for every sample `i`,
`scipy.stats.mannwhitneyu(expr_tgs[i, :], expr_non_tgs[i, :], alternative='two-sided')`
on the standardized expression data, the test being the oracle `pv`. -/
def p_values_of (e : ℕ → ℕ → ℝ) (n g : ℕ) (syms : List α) (pv : List ℝ → List ℝ → ℝ)
    (p : α × List α) : List ℝ :=
  (List.range n).map (fun i =>
    pv (sample_vals (standardize e n) (tg_idxs syms p.2) i)
       (sample_vals (standardize e n) (non_tg_idxs g (tg_idxs syms p.2)) i))

/-- The chip rate one loop iteration of `find_chip_rates` computes for a TF
entry `p`: `np.sum(reject) / nb_samples`, where `reject` is the boolean
array of `multipletests(p_values, alpha=0.05, method='fdr_bh')`, the
correction being the oracle `rj`. -/
def chip_rate_of (e : ℕ → ℕ → ℝ) (n g : ℕ) (syms : List α) (pv : List ℝ → List ℝ → ℝ)
    (rj : List ℝ → List Bool) (p : α × List α) : ℝ :=
  ((rj (p_values_of e n g syms pv p)).count true : ℝ) / (n : ℝ)

/-- Embeds `find_chip_rates(expr, gene_symbols, tf_tg)` from `utils.py`.

The two external statistical collaborators are oracle parameters:
`pv tgVals nonTgVals` stands for the p-value of the two-sided rank-sum test
and `rj pvals` for the boolean `reject` array of the Benjamini–Hochberg
correction (see `p_values_of` and `chip_rate_of`).

For every eligible TF the loop appends `len(tg_idxs)` (a Python int) to the
weights and the chip rate to the rates; expression data is standardized per
gene column first.  Returns `(chip rates, weights)`. -/
def find_chip_rates (e : ℕ → ℕ → ℝ) (n g : ℕ) (syms : List α) (tftg : List (α × List α))
    (pv : List ℝ → List ℝ → ℝ) (rj : List ℝ → List Bool) : List ℝ × List ℕ :=
  tftg.foldl (fun acc p =>
    if tf_eligible syms p then
      (acc.1 ++ [chip_rate_of e n g syms pv rj p], acc.2 ++ [(tg_idxs syms p.2).length])
    else acc) ([], [])

/-- Embeds the `weighted_mean` lambda of `omega_coefficient`:
`np.dot(w, x) / w.sum()` (the weights are the Python-int target counts). -/
def weighted_mean (x : List ℝ) (w : List ℕ) : ℝ :=
  npSum ((x.zip w).map (fun p => (p.2 : ℝ) * p.1)) / ((w.sum : ℕ) : ℝ)

/-- Embeds the `weighted_var` lambda of `omega_coefficient`:
`np.dot(w, (x - mean) ** 2) / w.sum()`. -/
def weighted_var (x : List ℝ) (w : List ℕ) (mean : ℝ) : ℝ :=
  npSum ((x.zip w).map (fun p => (p.2 : ℝ) * (p.1 - mean) ^ 2)) / ((w.sum : ℕ) : ℝ)

/-- Embeds the `weighted_covar` lambda of `omega_coefficient`:
`np.dot(w * (x - mean_x), y - mean_y) / w.sum()`. -/
def weighted_covar (x y : List ℝ) (w : List ℕ) (mx my : ℝ) : ℝ :=
  npSum (((x.zip y).zip w).map (fun q => (q.2 : ℝ) * (q.1.1 - mx) * (q.1.2 - my))) / ((w.sum : ℕ) : ℝ)

/-- Embeds `omega_coefficient(expr_x, expr_z, gene_symbols)` from `utils.py`.
The regulatory map `tftg` models the `tf_tg_interactions()` data source, and
`pv`, `rj` the scipy/statsmodels oracles, shared by the two
`find_chip_rates` calls exactly as in the source.  The
`assert (weights_x == weights_y).all()` is embedded as the equality test on
the two weight lists, a failing assert being the fatal
`.error .assertionError`. -/
def omega_coefficient (ex : ℕ → ℕ → ℝ) (nx gx : ℕ) (ez : ℕ → ℕ → ℝ) (nz gz : ℕ)
    (syms : List α) (tftg : List (α × List α))
    (pv : List ℝ → List ℝ → ℝ) (rj : List ℝ → List Bool) : Except PyErr ℝ :=
  let rx := find_chip_rates ex nx gx syms tftg pv rj
  let rz := find_chip_rates ez nz gz syms tftg pv rj
  if rx.2 = rz.2 then
    .ok (weighted_covar rx.1 rz.1 rx.2 (weighted_mean rx.1 rx.2) (weighted_mean rz.1 rx.2) /
      Real.sqrt (weighted_var rx.1 rx.2 (weighted_mean rx.1 rx.2) *
        weighted_var rz.1 rx.2 (weighted_mean rz.1 rx.2)))
  else .error .assertionError

/-- Modelled from the spec: the `Cluster` class of `clustering.py`, which is
not under `src/`.  Per the spec's ClusterNode data model, a leaf holds a
single gene index and an internal node holds its two children. -/
inductive Cluster
| leaf (index : ℕ)
| node (c_left c_right : Cluster)

/-- Modelled from the spec: the `indices` view of a `Cluster` — the merged
set of leaf indices, order-stable, concatenation of left-then-right. -/
def Cluster.indices : Cluster → List ℕ
| .leaf i => [i]
| .node l r => l.indices ++ r.indices

/-- One row `(child1_id, child2_id, merge_distance, merged_size)` of a scipy
linkage matrix. -/
abbrev LinkRow : Type := ℕ × ℕ × ℝ × ℕ

/-- The two symmetric assignments `m[c1_idx, c2_idx] = dist` and
`m[c2_idx, c1_idx] = dist` of `dendrogram_distance`, on a function-valued
matrix. -/
def mset (m : ℕ → ℕ → ℝ) (a b : ℕ) (v : ℝ) : ℕ → ℕ → ℝ :=
  fun i j => if i = a ∧ j = b ∨ i = b ∧ j = a then v else m i j

/-- The loop of `dendrogram_distance`: replay the linkage rows, growing the
arena of clusters (`clusters[nb_genes + i] = Cluster(c_left=clusters[c1],
c_right=clusters[c2])`) and writing `dist` into the distance matrix for
every pair of one index from each child.  Cluster ids are list positions;
an id a valid linkage never produces falls back to `Cluster.leaf 0`. -/
def fill_dists (cl : List Cluster) (m : ℕ → ℕ → ℝ) : List LinkRow → List Cluster × (ℕ → ℕ → ℝ)
| [] => (cl, m)
| (c1, c2, d, _) :: rest =>
    fill_dists (cl ++ [.node (cl.getD c1 (.leaf 0)) (cl.getD c2 (.leaf 0))])
      (((cl.getD c1 (.leaf 0)).indices.flatMap (fun i1 =>
          (cl.getD c2 (.leaf 0)).indices.map (fun i2 => (i1, i2)))).foldl
        (fun mm q => mset mm q.1 q.2 d) m)
      rest

/-- Embeds `dendrogram_distance(l_matrix, condensed=True)` from `utils.py`:
`nb_genes = l_matrix.shape[0] + 1` leaves, the distance matrix filled by
replaying the merges, returned in condensed upper-diagonal form. -/
def dendrogram_distance (l : List LinkRow) : List ℝ :=
  upper_diag_list (l.length + 1)
    (fill_dists ((List.range (l.length + 1)).map .leaf) (fun _ _ => 0) l).2

/-- Embeds `compare_cophenetic(l_matrix1, l_matrix2)` from `utils.py`: the
Pearson correlation of the two condensed dendrogram-distance vectors. -/
def compare_cophenetic (l1 l2 : List LinkRow) : ℝ :=
  pearson_correlation1 (dendrogram_distance l1) (dendrogram_distance l2)

/-- Embeds `hierarchical_clustering(data, corr_fun=pearson_correlation)`
from `utils.py`.  `linkO` is the external `scipy.cluster.hierarchy.linkage`
oracle (method `'complete'`); the repository code only builds its condensed
input `y = 1 - correlations_list(data, data)`. -/
def hierarchical_clustering (e : ℕ → ℕ → ℝ) (n g : ℕ)
    (linkO : List ℝ → List LinkRow) : List LinkRow :=
  linkO ((correlations_list e e n g).map (fun c => 1 - c))

/-- Embeds `gamma_coefficients(expr_x, expr_z)` from `utils.py`, returning
`(Gamma(DX, DZ), Gamma(DX, TX), Gamma(DZ, TZ), Gamma(TX, TZ))`.  `cophO` is
the external `scipy.cluster.hierarchy.cophenet` oracle (its correlation
component). -/
def gamma_coefficients (ex : ℕ → ℕ → ℝ) (nx : ℕ) (ez : ℕ → ℕ → ℝ) (nz g : ℕ)
    (linkO : List ℝ → List LinkRow) (cophO : List LinkRow → List ℝ → ℝ) : ℝ × ℝ × ℝ × ℝ :=
  let dx := (correlations_list ex ex nx g).map (fun c => 1 - c)
  let dz := (correlations_list ez ez nz g).map (fun c => 1 - c)
  (pearson_correlation1 dx dz,
   cophO (hierarchical_clustering ex nx g linkO) dx,
   cophO (hierarchical_clustering ez nz g linkO) dz,
   compare_cophenetic (hierarchical_clustering ex nx g linkO)
     (hierarchical_clustering ez nz g linkO))

/-- Embeds `compute_scores(expr_x, expr_z, gene_symbols)` from `utils.py`:
the 6-element score vector
`[Gamma(DX, DZ), Gamma(TX, TZ), (Gamma(DX, TX) - Gamma(DZ, TZ))**2, psi, phi, omega]`,
with psi and phi on the grouped (`flat=False`) correlation lists and the
default `weights_type='nb_genes'`.  Both matrices share the gene set of
`gene_symbols`, of size `g`. -/
def compute_scores (ex : ℕ → ℕ → ℝ) (nx : ℕ) (ez : ℕ → ℕ → ℝ) (nz g : ℕ)
    (syms : List α) (tftg : List (α × List α)) (linkO : List ℝ → List LinkRow)
    (cophO : List LinkRow → List ℝ → ℝ) (pv : List ℝ → List ℝ → ℝ)
    (rj : List ℝ → List Bool) : Except PyErr (List ℝ) := do
  let gmm := gamma_coefficients ex nx ez nz g linkO cophO
  let rx := compute_tf_tg_corrs ex nx syms tftg
  let sz := compute_tf_tg_corrs ez nz syms tftg
  let psi ← psi_coefficient rx.1 sz.1 .nb_genes
  let phi ← phi_coefficient rx.2 sz.2 .nb_genes
  let omg ← omega_coefficient ex nx g ez nz g syms tftg pv rj
  return [gmm.1, gmm.2.2.2, (gmm.2.1 - gmm.2.2.1) ^ 2, psi, phi, omg]

/-- Row-major enumeration of the strict upper-triangle index pairs of a
`g × g` matrix, written from the spec's words ("left-to-right, top-to-bottom
scan order, dropping the diagonal and lower triangle") to compare the
source translation `upper_diag_list` against. -/
def upper_pairs (g : ℕ) : List (ℕ × ℕ) :=
  (List.range g).flatMap (fun i =>
    ((List.range g).filter (fun j => decide (i < j))).map (fun j => (i, j)))

end

lemma guard_filterMap (i : ℕ) (m : ℕ → ℕ → ℝ) (l : List ℕ) :
    (l.map (fun j => if i < j then some (m i j) else none)).filterMap id
      = (l.filter (fun j => decide (i < j))).map (m i) := by
  induction l with
  | nil => rfl
  | cons a t ih =>
      by_cases h : i < a <;>
        simp [List.filterMap_cons, List.filter_cons, h, ih]

lemma list_sum_range {M : Type} [AddCommMonoid M] (f : ℕ → M) (n : ℕ) :
    ((List.range n).map f).sum = ∑ i ∈ Finset.range n, f i := by
  induction n with
  | zero => simp
  | succ k ih =>
      rw [List.range_succ, Finset.sum_range_succ, List.map_append, List.sum_append, ih]
      simp

lemma length_filter_range_lt (g i : ℕ) :
    ((List.range g).filter (fun j => decide (i < j))).length = g - 1 - i := by
  induction g with
  | zero => simp
  | succ k ih =>
      rw [List.range_succ, List.filter_append, List.length_append, ih]
      by_cases h : i < k <;> simp [h] <;> omega

lemma upper_diag_list_eq_map (g : ℕ) (m : ℕ → ℕ → ℝ) :
    upper_diag_list g m = (upper_pairs g).map (fun p => m p.1 p.2) := by
  unfold upper_diag_list upper_pairs
  rw [List.filterMap_flatten, List.map_map, List.map_flatMap]
  rw [show ((List.range g).map (List.filterMap id ∘ fun i =>
      (List.range g).map (fun j => if i < j then some (m i j) else none))).flatten
    = (List.range g).flatMap (List.filterMap id ∘ fun i =>
      (List.range g).map (fun j => if i < j then some (m i j) else none)) from rfl]
  congr 1
  funext i
  simp only [Function.comp_apply, guard_filterMap, List.map_map]
  rfl

lemma upper_pairs_length (g : ℕ) : (upper_pairs g).length = g * (g - 1) / 2 := by
  unfold upper_pairs
  rw [List.length_flatMap]
  have h : (List.map (List.length ∘ fun i =>
      ((List.range g).filter (fun j => decide (i < j))).map (fun j => (i, j))) (List.range g)).sum
      = ∑ i ∈ Finset.range g, (g - 1 - i) := by
    rw [show (List.length ∘ fun i =>
        ((List.range g).filter (fun j => decide (i < j))).map (fun j => (i, j)))
      = fun i => g - 1 - i by funext i; simp [length_filter_range_lt]]
    exact list_sum_range _ g
  rw [h, Finset.sum_range_reflect (fun i => i) g]
  simp [Finset.sum_range_id g, Nat.mul_comm]

lemma mem_upper_pairs (g : ℕ) (p : ℕ × ℕ) :
    p ∈ upper_pairs g ↔ p.1 < p.2 ∧ p.2 < g := by
  unfold upper_pairs
  cases p with
  | mk a b =>
      simp only [List.mem_flatMap, List.mem_map, List.mem_filter, List.mem_range]
      constructor
      · rintro ⟨i, hi, j, ⟨hj, hij⟩, hab⟩
        cases hab
        exact ⟨by simpa using hij, hj⟩
      · rintro ⟨hab, hb⟩
        exact ⟨a, lt_trans hab hb, b, ⟨hb, by simpa using hab⟩, rfl⟩

/-- Claim C5: for every `g × g` matrix, `upper_diag_list` returns exactly
`g * (g - 1) / 2` values, namely the strict upper-triangular entries
`m i j` with `i < j < g`, in row-major (left-to-right, top-to-bottom) scan
order — the order given by the explicit enumeration `upper_pairs`, whose
membership is exactly the strict upper triangle. -/
theorem upper_diag_list_spec (g : ℕ) (m : ℕ → ℕ → ℝ) :
    (upper_diag_list g m).length = g * (g - 1) / 2 ∧
    upper_diag_list g m = (upper_pairs g).map (fun p => m p.1 p.2) ∧
    ∀ p : ℕ × ℕ, p ∈ upper_pairs g ↔ p.1 < p.2 ∧ p.2 < g := by
  refine ⟨?_, upper_diag_list_eq_map g m, mem_upper_pairs g⟩
  rw [upper_diag_list_eq_map g m, List.length_map, upper_pairs_length]

lemma phi_weight_closed_form (g : ℕ) : phi_weight ((g + 1) * g / 2) = (g : ℝ) := by
  unfold phi_weight
  have hdvd : 2 ∣ (g + 1) * g := by
    rcases Nat.even_or_odd g with h | h
    · exact Dvd.dvd.mul_left h.two_dvd (g + 1)
    · exact Dvd.dvd.mul_right (h.add_one.two_dvd) g
  have hcast : (((g + 1) * g / 2 : ℕ) : ℝ) = ((g : ℝ) + 1) * g / 2 := by
    rw [Nat.cast_div hdvd (by norm_num)]
    push_cast
    ring
  rw [hcast]
  have hsq : 1 + 8 * (((g : ℝ) + 1) * g / 2) = (2 * (g : ℝ) + 1) ^ 2 := by ring
  rw [hsq, Real.sqrt_sq (by positivity)]
  ring

/-- Claim C2: in `phi_coefficient` with `weights_type='nb_genes'`, the
weight for a TF whose condensed TG–TG list has length `L` is the positive
root of `w^2 + w - 2L = 0` (that part matches the code, embedded as
`phi_weight`).  But for a TF with `t = g + 1` present target genes, whose
condensed list length is `L = t * (t - 1) / 2 = (g + 1) * g / 2`, that root
is `g = t - 1`, one less than the number of genes the TF regulates — the
claim (and the code's own comment `nb. of genes regulated by the TF`) says
it is `t`.  Concretely, a TF with 3 targets has `L = 3` and gets weight
`phi_weight 3 = 2`, not `3`: the quadratic should have been
`w^2 - w - 2L = 0`. -/
theorem phi_weight_is_targets_minus_one :
    (∀ g : ℕ, phi_weight ((g + 1) * g / 2) = (g : ℝ)) ∧
    phi_weight 3 = 2 ∧ (2 : ℝ) ≠ 3 := by
  refine ⟨phi_weight_closed_form, ?_, by norm_num⟩
  rw [show (3 : ℕ) = (2 + 1) * 2 / 2 from by norm_num, phi_weight_closed_form 2]
  norm_num

variable {α : Type} [DecidableEq α]

lemma ctc_foldl (e : ℕ → ℕ → ℝ) (n : ℕ) (syms : List α) (tftg : List (α × List α))
    (acc : List (List ℝ) × List (List ℝ)) :
    tftg.foldl (fun acc p =>
      if tf_eligible syms p then
        (acc.1 ++ [tf_tg_entry e n syms p.1 p.2], acc.2 ++ [tg_tg_entry e n syms p.2])
      else acc) acc
    = (acc.1 ++ (tftg.filter (fun p => decide (tf_eligible syms p))).map
         (fun p => tf_tg_entry e n syms p.1 p.2),
       acc.2 ++ (tftg.filter (fun p => decide (tf_eligible syms p))).map
         (fun p => tg_tg_entry e n syms p.2)) := by
  induction tftg generalizing acc with
  | nil => simp
  | cons q t ih =>
      rw [List.foldl_cons, List.filter_cons]
      by_cases h : tf_eligible syms q
      · rw [if_pos h, ih]
        simp [h]
      · rw [if_neg h, ih]
        simp [h]

lemma mem_idxs_of (s : α) (syms : List α) (i : ℕ) :
    i ∈ idxs_of s syms ↔ i < syms.length ∧ syms.get? i = some s := by
  unfold idxs_of
  simp [List.mem_filter, List.mem_range]

lemma tg_idxs_ne_nil_iff (syms : List α) (tgs : List α) :
    tg_idxs syms tgs ≠ [] ↔ ∃ t ∈ tgs, t ∈ syms := by
  constructor
  · intro h
    by_contra hc
    push_neg at hc
    apply h
    unfold tg_idxs
    have hf : tgs.filter (fun t => t ∈ syms) = [] := by
      rw [List.filter_eq_nil_iff]
      intro t ht
      simpa using hc t ht
    rw [hf]
    rfl
  · rintro ⟨t, ht, hts⟩
    obtain ⟨i, hi⟩ := List.mem_iff_get?.mp hts
    have hmem : i ∈ idxs_of t syms := by
      rw [mem_idxs_of]
      exact ⟨(List.get?_eq_some.mp hi).1, hi⟩
    have : i ∈ tg_idxs syms tgs := by
      unfold tg_idxs
      rw [List.mem_flatten]
      refine ⟨idxs_of t syms, List.mem_map_of_mem _ ?_, hmem⟩
      rw [List.mem_filter]
      exact ⟨ht, by simpa using hts⟩
    exact List.ne_nil_of_mem this

/-- Claim C4: `compute_tf_tg_corrs` produces output entries exactly for the
TFs that appear in `gene_symbols` and have at least one present target (in
the map's iteration order), and a TF absent from the symbols, or all of
whose targets are absent, is skipped entirely — the outputs are literally
the per-TF entries mapped over the eligible sublist, with eligibility being
presence of the TF plus presence of at least one target. -/
theorem compute_tf_tg_corrs_exactly_eligible (e : ℕ → ℕ → ℝ) (n : ℕ) (syms : List α)
    (tftg : List (α × List α)) :
    compute_tf_tg_corrs e n syms tftg
      = ((tftg.filter (fun p => decide (tf_eligible syms p))).map
           (fun p => tf_tg_entry e n syms p.1 p.2),
         (tftg.filter (fun p => decide (tf_eligible syms p))).map
           (fun p => tg_tg_entry e n syms p.2)) ∧
    ∀ p : α × List α, tf_eligible syms p ↔ (p.1 ∈ syms ∧ ∃ t ∈ p.2, t ∈ syms) := by
  constructor
  · unfold compute_tf_tg_corrs
    rw [ctc_foldl]
    simp
  · intro p
    unfold tf_eligible
    rw [tg_idxs_ne_nil_iff]

/-- Claim C9: when no TF meets the eligibility criteria, both grouped
correlation lists are empty and the total weight is zero; `psi_coefficient`
and `phi_coefficient` then report a well-defined error instead of silently
propagating a NaN.  (In the source there is no explicit guard: with no loop
iteration both accumulators are still the Python integer `0`, so the final
`total_sum / weights_sum` raises `ZeroDivisionError` — a hard, immediate
error, embedded as `.error .zeroDivisionError`, rather than a NaN result.) -/
theorem psi_phi_empty_eligible_error :
    ∀ wt : WeightsType,
      psi_coefficient [] [] wt = .error .zeroDivisionError ∧
      phi_coefficient [] [] wt = .error .zeroDivisionError ∧
      (psi_sums [] wt).1 = 0 ∧ (phi_sums [] wt).1 = 0 :=
  fun _ => ⟨rfl, rfl, rfl, rfl⟩

lemma npVar_nonneg (v : List ℝ) : 0 ≤ npVar v := by
  unfold npVar npSum
  apply div_nonneg _ (Nat.cast_nonneg _)
  apply List.sum_nonneg
  intro x hx
  obtain ⟨a, _, ha⟩ := List.mem_map.mp hx
  rw [← ha]
  positivity

lemma npVar_ne_zero_length (v : List ℝ) (h : npVar v ≠ 0) : v ≠ [] := by
  intro hv
  exact h (by rw [hv]; simp [npVar, npSum])

lemma npStd_sq (v : List ℝ) : npStd v * npStd v = npVar v :=
  Real.mul_self_sqrt (npVar_nonneg v)

lemma sum_sq_dev (v : List ℝ) : (v.map (fun a => (a - npMean v) ^ 2)).sum = npVar v * v.length := by
  unfold npVar npSum
  rcases eq_or_ne (v.length : ℝ) 0 with h | h
  · rw [Nat.cast_eq_zero, List.length_eq_zero] at h
    rw [h]
    simp
  · field_simp

lemma sum_std_sq (v : List ℝ) (h : npVar v ≠ 0) :
    (v.map (fun a => ((a - npMean v) / npStd v) ^ 2)).sum = (v.length : ℝ) := by
  have hstep : (v.map (fun a => ((a - npMean v) / npStd v) ^ 2))
      = v.map (fun a => (a - npMean v) ^ 2 / npVar v) := by
    apply List.map_congr_left
    intro a _
    rw [div_pow, sq (npStd v), npStd_sq]
  rw [hstep]
  rw [show (v.map (fun a => (a - npMean v) ^ 2 / npVar v))
      = v.map ((fun b => b / npVar v) ∘ (fun a => (a - npMean v) ^ 2)) from rfl,
    ← List.map_map]
  rw [show ((v.map (fun a => (a - npMean v) ^ 2)).map (fun b => b / npVar v))
      = ((v.map (fun a => (a - npMean v) ^ 2)).map (fun b => b * (npVar v)⁻¹)) from by
        simp [div_eq_mul_inv]]
  rw [List.sum_map_mul_right]
  simp only [List.map_id']
  rw [sum_sq_dev]
  field_simp

/-- `pearson_correlation` of a non-constant 1-D array with itself is `1`:
the key self-similarity fact behind the gamma and cophenetic scores. -/
lemma pearson_correlation1_self (v : List ℝ) (h : npVar v ≠ 0) :
    pearson_correlation1 v v = 1 := by
  unfold pearson_correlation1 npDot npSum
  rw [List.zip_map' _ _ v, List.map_map]
  have hsq : ((fun p : ℝ × ℝ => p.1 * p.2) ∘ fun a =>
      ((a - npMean v) / npStd v, (a - npMean v) / npStd v))
      = fun a => ((a - npMean v) / npStd v) ^ 2 := by
    funext a
    simp [sq]
  rw [hsq, sum_std_sq v h]
  have hlen : (v.length : ℝ) ≠ 0 := by
    intro h0
    exact npVar_ne_zero_length v h (List.length_eq_zero.mp (Nat.cast_eq_zero.mp h0))
  field_simp

lemma zip_self {β : Type} (x : List β) : x.zip x = x.map (fun a => (a, a)) := by
  induction x with
  | nil => rfl
  | cons a t ih => simp [ih]

lemma npDot_self (x : List ℝ) : npDot x x = (x.map (fun a => a ^ 2)).sum := by
  unfold npDot npSum
  rw [zip_self, List.map_map]
  congr 1
  exact List.map_congr_left (fun a _ => by simp [Function.comp, sq])

lemma npDot_self_nonneg (x : List ℝ) : 0 ≤ npDot x x := by
  rw [npDot_self]
  apply List.sum_nonneg
  intro b hb
  obtain ⟨a, _, ha⟩ := List.mem_map.mp hb
  rw [← ha]
  positivity

/-- `cosine_similarity` of a nonzero vector with itself is `1`. -/
lemma cosine_similarity_self (x : List ℝ) (h : npDot x x ≠ 0) :
    cosine_similarity x x = 1 := by
  unfold cosine_similarity npNorm
  rw [Real.mul_self_sqrt (npDot_self_nonneg x)]
  exact div_self h

lemma col_length (e : ℕ → ℕ → ℝ) (n j : ℕ) : (col e n j).length = n := by
  unfold col
  rw [List.length_map, List.length_range]

lemma std_col_map (e : ℕ → ℕ → ℝ) (n j : ℕ) (f : ℝ → ℝ) :
    (List.range n).map (fun s => f (e s j)) = (col e n j).map f := by
  unfold col
  rw [List.map_map]
  rfl

lemma sum_std_matrix_sq (e : ℕ → ℕ → ℝ) (n j : ℕ) (h : npVar (col e n j) ≠ 0) :
    ((List.range n).map (fun s => standardize e n s j * standardize e n s j)).sum = (n : ℝ) := by
  have hmap : (List.range n).map (fun s => standardize e n s j * standardize e n s j)
      = (col e n j).map (fun a => ((a - npMean (col e n j)) / npStd (col e n j)) ^ 2) := by
    unfold standardize col
    rw [List.map_map]
    exact List.map_congr_left (fun s _ => by simp [Function.comp, sq])
  rw [hmap, sum_std_sq _ h, col_length]

lemma matrix_var_ne_zero_n_pos (e : ℕ → ℕ → ℝ) (n j : ℕ) (h : npVar (col e n j) ≠ 0) :
    (n : ℝ) ≠ 0 := by
  intro h0
  have := npVar_ne_zero_length _ h
  apply this
  rw [← List.length_eq_zero, col_length]
  exact_mod_cast h0

/-- Claim C6: for every matrix and sample count with no zero-variance
column among the first `g` genes, the self-correlation matrix
`pearson_correlation(X, X)` is symmetric, has unit diagonal, and every
entry lies in `[-1, 1]`. -/
theorem pearson_correlation_self_matrix (e : ℕ → ℕ → ℝ) (n g : ℕ)
    (h : ∀ j, j < g → npVar (col e n j) ≠ 0) :
    (∀ i j, pearson_correlation e e n i j = pearson_correlation e e n j i) ∧
    (∀ j, j < g → pearson_correlation e e n j j = 1) ∧
    (∀ i j, i < g → j < g → |pearson_correlation e e n i j| ≤ 1) := by
  refine ⟨?_, ?_, ?_⟩
  · intro i j
    unfold pearson_correlation npSum
    congr 2
    exact List.map_congr_left (fun s _ => mul_comm _ _)
  · intro j hj
    unfold pearson_correlation npSum
    rw [sum_std_matrix_sq e n j (h j hj)]
    exact div_self (matrix_var_ne_zero_n_pos e n j (h j hj))
  · intro i j hi hj
    have hn : (n : ℝ) ≠ 0 := matrix_var_ne_zero_n_pos e n i (h i hi)
    have hi2 : (∑ s ∈ Finset.range n, standardize e n s i ^ 2) = (n : ℝ) := by
      rw [← list_sum_range]
      rw [show (fun s => standardize e n s i ^ 2)
          = fun s => standardize e n s i * standardize e n s i from by funext s; rw [sq]]
      exact sum_std_matrix_sq e n i (h i hi)
    have hj2 : (∑ s ∈ Finset.range n, standardize e n s j ^ 2) = (n : ℝ) := by
      rw [← list_sum_range]
      rw [show (fun s => standardize e n s j ^ 2)
          = fun s => standardize e n s j * standardize e n s j from by funext s; rw [sq]]
      exact sum_std_matrix_sq e n j (h j hj)
    have hcs := Finset.sum_mul_sq_le_sq_mul_sq (Finset.range n)
      (fun s => standardize e n s i) (fun s => standardize e n s j)
    rw [hi2, hj2] at hcs
    unfold pearson_correlation npSum
    rw [list_sum_range]
    rw [← sq_le_one_iff_abs_le_one, div_pow]
    rw [div_le_one (by positivity)]
    calc (∑ s ∈ Finset.range n, standardize e n s i * standardize e n s j) ^ 2
        ≤ (n : ℝ) * (n : ℝ) := hcs
      _ = (n : ℝ) ^ 2 := (sq (n : ℝ)).symm

/-- Witness for claim C6 at a concrete 2-sample, 1-gene matrix whose single
column is `[1, -1]` (variance 1). -/
theorem pearson_correlation_self_matrix_witness :
    (∀ j, j < 1 → npVar (col (fun s _ => if s = 0 then (1 : ℝ) else -1) 2 j) ≠ 0) ∧
    ((∀ i j, pearson_correlation (fun s _ => if s = 0 then (1 : ℝ) else -1)
        (fun s _ => if s = 0 then (1 : ℝ) else -1) 2 i j
      = pearson_correlation (fun s _ => if s = 0 then (1 : ℝ) else -1)
        (fun s _ => if s = 0 then (1 : ℝ) else -1) 2 j i) ∧
     (∀ j, j < 1 → pearson_correlation (fun s _ => if s = 0 then (1 : ℝ) else -1)
        (fun s _ => if s = 0 then (1 : ℝ) else -1) 2 j j = 1) ∧
     (∀ i j, i < 1 → j < 1 → |pearson_correlation (fun s _ => if s = 0 then (1 : ℝ) else -1)
        (fun s _ => if s = 0 then (1 : ℝ) else -1) 2 i j| ≤ 1)) := by
  have h : ∀ j, j < 1 → npVar (col (fun s _ => if s = 0 then (1 : ℝ) else -1) 2 j) ≠ 0 := by
    intro j _
    have hc : col (fun s _ => if s = 0 then (1 : ℝ) else -1) 2 j = [1, -1] := rfl
    rw [hc]
    norm_num [npVar, npMean, npSum]
  exact ⟨h, pearson_correlation_self_matrix _ 2 1 h⟩

/-- The LinkageRecord well-formedness invariant: each row's child ids
reference original leaves (`0..n-1`) or previously created merge nodes
(`n..n+i-1`), ids being assigned in creation order. -/
def valid_linkage (l : List LinkRow) : Prop :=
  ∀ p ∈ l.enum, p.2.1 < l.length + 1 + p.1 ∧ p.2.2.1 < l.length + 1 + p.1

/-- Claim C7: for every (well-formed) linkage matrix whose
dendrogram-distance vector is not constant, `compare_cophenetic(L, L)` — a
dendrogram compared to itself — returns exactly `1`. -/
theorem compare_cophenetic_self (l : List LinkRow) (hval : valid_linkage l)
    (h : npVar (dendrogram_distance l) ≠ 0) : compare_cophenetic l l = 1 :=
  pearson_correlation1_self _ h

/-- Witness for claim C7 at the concrete 3-leaf linkage matrix that merges
leaves 0 and 1 at height 1/2 and then merges that cluster with leaf 2 at
height 1; its cophenetic distance vector is `[1/2, 1, 1]`. -/
theorem compare_cophenetic_self_witness :
    valid_linkage [(0, 1, (1 : ℝ)/2, 2), (3, 2, 1, 3)] ∧
    npVar (dendrogram_distance [(0, 1, (1 : ℝ)/2, 2), (3, 2, 1, 3)]) ≠ 0 ∧
    compare_cophenetic [(0, 1, (1 : ℝ)/2, 2), (3, 2, 1, 3)]
      [(0, 1, (1 : ℝ)/2, 2), (3, 2, 1, 3)] = 1 := by
  have hval : valid_linkage [(0, 1, (1 : ℝ)/2, 2), (3, 2, 1, 3)] := by
    intro p hp
    fin_cases hp <;> refine ⟨?_, ?_⟩ <;> norm_num
  have hdd : dendrogram_distance [(0, 1, (1 : ℝ)/2, 2), (3, 2, 1, 3)] = [1/2, 1, 1] := rfl
  have hvar : npVar (dendrogram_distance [(0, 1, (1 : ℝ)/2, 2), (3, 2, 1, 3)]) ≠ 0 := by
    rw [hdd]
    norm_num [npVar, npMean, npSum]
  exact ⟨hval, hvar, compare_cophenetic_self _ hval hvar⟩

lemma fcr_foldl (e : ℕ → ℕ → ℝ) (n g : ℕ) (syms : List α) (tftg : List (α × List α))
    (pv : List ℝ → List ℝ → ℝ) (rj : List ℝ → List Bool) (acc : List ℝ × List ℕ) :
    tftg.foldl (fun acc p =>
      if tf_eligible syms p then
        (acc.1 ++ [chip_rate_of e n g syms pv rj p], acc.2 ++ [(tg_idxs syms p.2).length])
      else acc) acc
    = (acc.1 ++ (tftg.filter (fun p => decide (tf_eligible syms p))).map
         (chip_rate_of e n g syms pv rj),
       acc.2 ++ (tftg.filter (fun p => decide (tf_eligible syms p))).map
         (fun p => (tg_idxs syms p.2).length)) := by
  induction tftg generalizing acc with
  | nil => simp
  | cons q t ih =>
      rw [List.foldl_cons, List.filter_cons]
      by_cases h : tf_eligible syms q
      · rw [if_pos h, ih]
        simp [h]
      · rw [if_neg h, ih]
        simp [h]

lemma find_chip_rates_eq (e : ℕ → ℕ → ℝ) (n g : ℕ) (syms : List α) (tftg : List (α × List α))
    (pv : List ℝ → List ℝ → ℝ) (rj : List ℝ → List Bool) :
    find_chip_rates e n g syms tftg pv rj
    = ((tftg.filter (fun p => decide (tf_eligible syms p))).map (chip_rate_of e n g syms pv rj),
       (tftg.filter (fun p => decide (tf_eligible syms p))).map
         (fun p => (tg_idxs syms p.2).length)) := by
  unfold find_chip_rates
  rw [fcr_foldl]
  simp

/-- Claim C10: `find_chip_rates` returns two arrays of equal length, one
entry per eligible TF in the map's iteration order; every weight is the
TF's positive present-target count, and every chip rate is `k / nb_samples`
for an integer `0 ≤ k ≤ nb_samples` (the number of rejected samples), hence
lies in `[0, 1]`.  The Benjamini–Hochberg oracle is assumed to return one
reject flag per p-value, as `multipletests` does. -/
theorem find_chip_rates_invariants (e : ℕ → ℕ → ℝ) (n g : ℕ) (syms : List α)
    (tftg : List (α × List α)) (pv : List ℝ → List ℝ → ℝ) (rj : List ℝ → List Bool)
    (hrj : ∀ ps, (rj ps).length = ps.length) (hn : 0 < n) :
    (find_chip_rates e n g syms tftg pv rj).1.length
      = (find_chip_rates e n g syms tftg pv rj).2.length ∧
    (find_chip_rates e n g syms tftg pv rj).2
      = (tftg.filter (fun p => decide (tf_eligible syms p))).map
          (fun p => (tg_idxs syms p.2).length) ∧
    (∀ w ∈ (find_chip_rates e n g syms tftg pv rj).2, 0 < w) ∧
    (∀ x ∈ (find_chip_rates e n g syms tftg pv rj).1,
      ∃ k : ℕ, k ≤ n ∧ x = (k : ℝ) / (n : ℝ) ∧ 0 ≤ x ∧ x ≤ 1) := by
  rw [find_chip_rates_eq]
  refine ⟨by rw [List.length_map, List.length_map], rfl, ?_, ?_⟩
  · intro w hw
    obtain ⟨p, hp, hpw⟩ := List.mem_map.mp hw
    have helig : tf_eligible syms p := by
      have := (List.mem_filter.mp hp).2
      simpa using this
    rw [← hpw]
    exact List.length_pos.mpr helig.2
  · intro x hx
    obtain ⟨p, _, hpx⟩ := List.mem_map.mp hx
    refine ⟨(rj (p_values_of e n g syms pv p)).count true, ?_, ?_, ?_, ?_⟩
    · calc (rj (p_values_of e n g syms pv p)).count true
          ≤ (rj (p_values_of e n g syms pv p)).length := List.count_le_length _ _
        _ = n := by rw [hrj, p_values_of, List.length_map, List.length_range]
    · rw [← hpx]; rfl
    · rw [← hpx]
      unfold chip_rate_of
      positivity
    · rw [← hpx]
      unfold chip_rate_of
      rw [div_le_one (by exact_mod_cast hn)]
      have : (rj (p_values_of e n g syms pv p)).count true ≤ n := by
        calc (rj (p_values_of e n g syms pv p)).count true
            ≤ (rj (p_values_of e n g syms pv p)).length := List.count_le_length _ _
          _ = n := by rw [hrj, p_values_of, List.length_map, List.length_range]
      exact_mod_cast this

/-- Witness for claim C10 at a concrete 1-sample, 2-gene dataset with the
regulatory map `{0 ↦ [1]}`, a constant p-value oracle and an
always-reject correction oracle. -/
theorem find_chip_rates_invariants_witness :
    (∀ ps : List ℝ, ((fun ps : List ℝ => ps.map (fun _ => true)) ps).length = ps.length) ∧
    (0 < 1) ∧
    ((find_chip_rates (fun _ _ => (0 : ℝ)) 1 2 [0, 1] [(0, [1])] (fun _ _ => 0)
        (fun ps => ps.map (fun _ => true))).1.length
      = (find_chip_rates (fun _ _ => (0 : ℝ)) 1 2 [0, 1] [(0, [1])] (fun _ _ => 0)
        (fun ps => ps.map (fun _ => true))).2.length ∧
     (find_chip_rates (fun _ _ => (0 : ℝ)) 1 2 [0, 1] [(0, [1])] (fun _ _ => 0)
        (fun ps => ps.map (fun _ => true))).2
      = ([(0, [1])].filter (fun p => decide (tf_eligible [0, 1] p))).map
          (fun p => (tg_idxs [0, 1] p.2).length) ∧
     (∀ w ∈ (find_chip_rates (fun _ _ => (0 : ℝ)) 1 2 [0, 1] [(0, [1])] (fun _ _ => 0)
        (fun ps => ps.map (fun _ => true))).2, 0 < w) ∧
     (∀ x ∈ (find_chip_rates (fun _ _ => (0 : ℝ)) 1 2 [0, 1] [(0, [1])] (fun _ _ => 0)
        (fun ps => ps.map (fun _ => true))).1,
       ∃ k : ℕ, k ≤ 1 ∧ x = (k : ℝ) / ((1 : ℕ) : ℝ) ∧ 0 ≤ x ∧ x ≤ 1)) := by
  have hrj : ∀ ps : List ℝ, ((fun ps : List ℝ => ps.map (fun _ => true)) ps).length
      = ps.length := by
    intro ps
    simp
  exact ⟨hrj, Nat.one_pos,
    find_chip_rates_invariants (fun _ _ => (0 : ℝ)) 1 2 [0, 1] [(0, [1])] (fun _ _ => 0)
      (fun ps => ps.map (fun _ => true)) hrj Nat.one_pos⟩

/-- Claim C8: the per-TF weight list of `find_chip_rates` depends only on
the gene symbols and the regulatory map, never on the expression data or
the statistical oracles; hence when `omega_coefficient` runs the detector
on two datasets with the same `gene_symbols` and map, its
`assert (weights_x == weights_y).all()` can never fail, and the coefficient
always returns a value (the assertion failure would be the fatal
`.error .assertionError`). -/
theorem omega_assert_never_fails (ex : ℕ → ℕ → ℝ) (nx gx : ℕ) (ez : ℕ → ℕ → ℝ) (nz gz : ℕ)
    (syms : List α) (tftg : List (α × List α)) (pv pv' : List ℝ → List ℝ → ℝ)
    (rj rj' : List ℝ → List Bool) :
    (find_chip_rates ex nx gx syms tftg pv rj).2
      = (find_chip_rates ez nz gz syms tftg pv' rj').2 ∧
    ∃ r : ℝ, omega_coefficient ex nx gx ez nz gz syms tftg pv rj = .ok r := by
  have hw : (find_chip_rates ex nx gx syms tftg pv rj).2
      = (find_chip_rates ez nz gz syms tftg pv rj).2 := by
    rw [find_chip_rates_eq, find_chip_rates_eq]
  refine ⟨?_, ?_⟩
  · rw [find_chip_rates_eq, find_chip_rates_eq]
  · exact ⟨_, by unfold omega_coefficient; rw [if_pos hw]⟩

lemma npDot_ne_zero_ne_nil (c : List ℝ) (h : npDot c c ≠ 0) : c ≠ [] := by
  intro hc
  rw [hc] at h
  exact h rfl

lemma psi_sums_self_aux (t : List (List ℝ)) (h1 : ∀ c ∈ t, npDot c c ≠ 0) :
    ∀ acc : ℝ × ℝ,
      (t.map (fun c => (c, c))).foldl (fun acc p =>
        (acc.1 + psi_weight .nb_genes p.1,
         acc.2 + psi_weight .nb_genes p.1 * cosine_similarity p.1 p.2)) acc
      = (acc.1 + (t.map (fun c => (c.length : ℝ))).sum,
         acc.2 + (t.map (fun c => (c.length : ℝ))).sum) := by
  induction t with
  | nil => intro acc; simp
  | cons c t' ih =>
      intro acc
      rw [List.map_cons, List.foldl_cons]
      have hcos : cosine_similarity c c = 1 :=
        cosine_similarity_self c (h1 c (List.mem_cons_self c t'))
      rw [show (acc.1 + psi_weight .nb_genes c,
            acc.2 + psi_weight .nb_genes c * cosine_similarity c c)
          = (acc.1 + (c.length : ℝ), acc.2 + (c.length : ℝ)) from by
            rw [hcos, mul_one]; rfl]
      rw [ih (fun d hd => h1 d (List.mem_cons_of_mem c hd))]
      rw [List.map_cons, List.sum_cons, Prod.mk.injEq]
      exact ⟨by dsimp only; ring, by dsimp only; ring⟩

lemma len_sum_pos (t : List (List ℝ)) (h1 : ∀ c ∈ t, npDot c c ≠ 0) (h2 : t ≠ []) :
    0 < (t.map (fun c => (c.length : ℝ))).sum := by
  rcases t with _ | ⟨c, t'⟩
  · exact absurd rfl h2
  · rw [List.map_cons, List.sum_cons]
    have hc : c ≠ [] := npDot_ne_zero_ne_nil c (h1 c (List.mem_cons_self c t'))
    have hlen : (1 : ℝ) ≤ (c.length : ℝ) := by
      have := List.length_pos.mpr hc
      exact_mod_cast this
    have hrest : 0 ≤ (t'.map (fun c => (c.length : ℝ))).sum := by
      apply List.sum_nonneg
      intro x hx
      obtain ⟨d, _, hd⟩ := List.mem_map.mp hx
      rw [← hd]
      positivity
    linarith

/-- `psi_coefficient` of a grouped TF–TG list with itself (under
`nb_genes` weighting) is exactly `1`, provided every per-TF vector is
nonzero and there is at least one TF. -/
lemma psi_coefficient_self (t : List (List ℝ)) (h1 : ∀ c ∈ t, npDot c c ≠ 0) (h2 : t ≠ []) :
    psi_coefficient t t .nb_genes = .ok 1 := by
  unfold psi_coefficient
  rw [zip_self t]
  have hne : (t.map (fun c => (c, c))).isEmpty = false := by
    rcases t with _ | ⟨c, t'⟩
    · exact absurd rfl h2
    · rfl
  rw [hne]
  have hsums : psi_sums (t.map (fun c => (c, c))) .nb_genes
      = ((t.map (fun c => (c.length : ℝ))).sum, (t.map (fun c => (c.length : ℝ))).sum) := by
    unfold psi_sums
    rw [psi_sums_self_aux t h1 (0, 0)]
    simp
  simp only [Bool.false_eq_true, if_false]
  rw [hsums]
  rw [div_self (ne_of_gt (len_sum_pos t h1 h2))]

lemma phi_weight_nonneg (L : ℕ) : 0 ≤ phi_weight L := by
  unfold phi_weight
  have h1 : (1 : ℝ) ≤ Real.sqrt (1 + 8 * (L : ℝ)) := by
    have h := Real.sqrt_le_sqrt (show (1 : ℝ) ≤ 1 + 8 * (L : ℝ) from by
      have := Nat.cast_nonneg (α := ℝ) L; linarith)
    rwa [Real.sqrt_one] at h
  linarith

lemma phi_weight_ge_one (L : ℕ) (h : 1 ≤ L) : 1 ≤ phi_weight L := by
  unfold phi_weight
  have h9 : (9 : ℝ) ≤ 1 + 8 * (L : ℝ) := by
    have : (1 : ℝ) ≤ (L : ℝ) := by exact_mod_cast h
    linarith
  have h3 : (3 : ℝ) ≤ Real.sqrt (1 + 8 * (L : ℝ)) := by
    rw [show (3 : ℝ) = Real.sqrt (3 ^ 2) from by rw [Real.sqrt_sq]; norm_num]
    exact Real.sqrt_le_sqrt (by linarith)
  linarith

/-- The total weight `phi_coefficient` accumulates over a grouped TG–TG
list paired with itself: `phi_weight` of the length for nonempty entries,
nothing for the skipped empty ones. -/
noncomputable def phi_vsum (u : List (List ℝ)) : ℝ :=
  (u.map (fun c => if c.length > 0 then phi_weight c.length else 0)).sum

lemma phi_vsum_nonneg (u : List (List ℝ)) : 0 ≤ phi_vsum u := by
  apply List.sum_nonneg
  intro x hx
  obtain ⟨c, _, hc⟩ := List.mem_map.mp hx
  rw [← hc]
  by_cases h : c.length > 0
  · rw [if_pos h]; exact phi_weight_nonneg _
  · rw [if_neg h]

lemma phi_vsum_pos (u : List (List ℝ)) (h0 : ∃ c ∈ u, c ≠ []) : 0 < phi_vsum u := by
  induction u with
  | nil => obtain ⟨c, hc, _⟩ := h0; exact absurd hc (List.not_mem_nil c)
  | cons c u' ih =>
      unfold phi_vsum
      rw [List.map_cons, List.sum_cons]
      obtain ⟨d, hd, hdne⟩ := h0
      rcases List.mem_cons.mp hd with rfl | hd'
      · have hlen : d.length > 0 := List.length_pos.mpr hdne
        have h1 : 1 ≤ phi_weight d.length := phi_weight_ge_one _ hlen
        have h2 : 0 ≤ phi_vsum u' := phi_vsum_nonneg u'
        rw [if_pos hlen]
        unfold phi_vsum at h2
        linarith
      · have hpos := ih ⟨d, hd', hdne⟩
        unfold phi_vsum at hpos
        have hterm : 0 ≤ if c.length > 0 then phi_weight c.length else 0 := by
          by_cases h : c.length > 0
          · rw [if_pos h]; exact phi_weight_nonneg _
          · rw [if_neg h]
        linarith

lemma phi_sums_self_aux (u : List (List ℝ)) (h1 : ∀ c ∈ u, c ≠ [] → npDot c c ≠ 0) :
    ∀ acc : ℝ × ℝ,
      (u.map (fun c => (c, c))).foldl (fun acc p =>
        if p.1.length > 0 then
          (acc.1 + phi_weight_of .nb_genes p.1,
           acc.2 + phi_weight_of .nb_genes p.1 * cosine_similarity p.1 p.2)
        else acc) acc
      = (acc.1 + phi_vsum u, acc.2 + phi_vsum u) := by
  induction u with
  | nil => intro acc; simp [phi_vsum]
  | cons c u' ih =>
      intro acc
      rw [List.map_cons, List.foldl_cons]
      have hrest := ih (fun d hd hdne => h1 d (List.mem_cons_of_mem c hd) hdne)
      by_cases hc : c.length > 0
      · have hcos : cosine_similarity c c = 1 :=
          cosine_similarity_self c
            (h1 c (List.mem_cons_self c u') (fun he => by rw [he] at hc; exact absurd hc (by simp)))
        rw [if_pos hc, hrest]
        unfold phi_vsum
        rw [List.map_cons, List.sum_cons, if_pos hc, hcos, Prod.mk.injEq]
        refine ⟨by simp only [phi_weight_of]; ring, by simp only [phi_weight_of]; ring⟩
      · rw [if_neg hc, hrest]
        unfold phi_vsum
        rw [List.map_cons, List.sum_cons, if_neg hc, Prod.mk.injEq]
        exact ⟨by ring, by ring⟩

/-- `phi_coefficient` of a grouped TG–TG list with itself (under `nb_genes`
weighting) is exactly `1`, provided every nonempty per-TF vector is nonzero
and at least one is nonempty. -/
lemma phi_coefficient_self (u : List (List ℝ)) (h1 : ∀ c ∈ u, c ≠ [] → npDot c c ≠ 0)
    (h0 : ∃ c ∈ u, c ≠ []) : phi_coefficient u u .nb_genes = .ok 1 := by
  unfold phi_coefficient
  rw [zip_self u]
  obtain ⟨c0, hc0, hc0ne⟩ := h0
  have hall : (u.map (fun c => (c, c))).all (fun p => p.1.isEmpty) = false := by
    rw [List.all_eq_false]
    refine ⟨(c0, c0), List.mem_map_of_mem _ hc0, ?_⟩
    simp [hc0ne]
  rw [hall]
  have hsums : phi_sums (u.map (fun c => (c, c))) .nb_genes = (phi_vsum u, phi_vsum u) := by
    unfold phi_sums
    rw [phi_sums_self_aux u h1 (0, 0)]
    simp
  simp only [Bool.false_eq_true, if_false]
  rw [hsums]
  exact congrArg Except.ok (div_self (ne_of_gt (phi_vsum_pos u ⟨c0, hc0, hc0ne⟩)))

lemma zip_zip_self (x : List ℝ) (w : List ℕ) :
    (x.zip x).zip w = (x.zip w).map (fun p => ((p.1, p.1), p.2)) := by
  induction x generalizing w with
  | nil => rfl
  | cons a t ih =>
      cases w with
      | nil => rfl
      | cons b wt => simp [ih]

lemma weighted_covar_self (x : List ℝ) (w : List ℕ) (m : ℝ) :
    weighted_covar x x w m m = weighted_var x w m := by
  unfold weighted_covar weighted_var npSum
  rw [zip_zip_self, List.map_map]
  congr 2
  exact List.map_congr_left (fun p _ => by simp [Function.comp, sq]; ring)

lemma weighted_var_nonneg (x : List ℝ) (w : List ℕ) (m : ℝ) : 0 ≤ weighted_var x w m := by
  unfold weighted_var npSum
  apply div_nonneg _ (Nat.cast_nonneg _)
  apply List.sum_nonneg
  intro b hb
  obtain ⟨p, _, hp⟩ := List.mem_map.mp hb
  rw [← hp]
  positivity

/-- `omega_coefficient` of a dataset with itself is exactly `1` whenever the
weighted variance of its chip rates is nonzero (and the internal assertion
passes trivially, the two weight lists being identical). -/
lemma omega_coefficient_self (e : ℕ → ℕ → ℝ) (n g : ℕ) (syms : List α)
    (tftg : List (α × List α)) (pv : List ℝ → List ℝ → ℝ) (rj : List ℝ → List Bool)
    (h : weighted_var (find_chip_rates e n g syms tftg pv rj).1
      (find_chip_rates e n g syms tftg pv rj).2
      (weighted_mean (find_chip_rates e n g syms tftg pv rj).1
        (find_chip_rates e n g syms tftg pv rj).2) ≠ 0) :
    omega_coefficient e n g e n g syms tftg pv rj = .ok 1 := by
  simp only [omega_coefficient, if_true]
  rw [weighted_covar_self]
  have hnn := weighted_var_nonneg (find_chip_rates e n g syms tftg pv rj).1
    (find_chip_rates e n g syms tftg pv rj).2
    (weighted_mean (find_chip_rates e n g syms tftg pv rj).1
      (find_chip_rates e n g syms tftg pv rj).2)
  rw [Real.sqrt_mul_self hnn]
  exact congrArg Except.ok (div_self h)

/-- Claim C1: a dataset compared against itself is perfectly self-similar:
for every expression matrix with no zero-variance gene column, non-constant
gene-distance and dendrogram-distance vectors, and none of the
zero-vector / zero-weight / zero-variance NaN edge cases in the psi, phi
and omega aggregations, `compute_scores(X, X, symbols)` returns exactly
`[1, 1, 0, 1, 1, 1]`. -/
theorem compute_scores_self (e : ℕ → ℕ → ℝ) (n g : ℕ) (syms : List α)
    (tftg : List (α × List α)) (linkO : List ℝ → List LinkRow)
    (cophO : List LinkRow → List ℝ → ℝ) (pv : List ℝ → List ℝ → ℝ) (rj : List ℝ → List Bool)
    (hvar : ∀ j, j < g → npVar (col e n j) ≠ 0)
    (hdists : npVar ((correlations_list e e n g).map (fun c => 1 - c)) ≠ 0)
    (hdend : npVar (dendrogram_distance (hierarchical_clustering e n g linkO)) ≠ 0)
    (htf : ∀ c ∈ (compute_tf_tg_corrs e n syms tftg).1, npDot c c ≠ 0)
    (htf0 : (compute_tf_tg_corrs e n syms tftg).1 ≠ [])
    (htg : ∀ c ∈ (compute_tf_tg_corrs e n syms tftg).2, c ≠ [] → npDot c c ≠ 0)
    (htg0 : ∃ c ∈ (compute_tf_tg_corrs e n syms tftg).2, c ≠ [])
    (homega : weighted_var (find_chip_rates e n g syms tftg pv rj).1
        (find_chip_rates e n g syms tftg pv rj).2
        (weighted_mean (find_chip_rates e n g syms tftg pv rj).1
          (find_chip_rates e n g syms tftg pv rj).2) ≠ 0) :
    compute_scores e n e n g syms tftg linkO cophO pv rj = .ok [1, 1, 0, 1, 1, 1] := by
  have hgamma : gamma_coefficients e n e n g linkO cophO
      = (1, cophO (hierarchical_clustering e n g linkO)
              ((correlations_list e e n g).map (fun c => 1 - c)),
         cophO (hierarchical_clustering e n g linkO)
              ((correlations_list e e n g).map (fun c => 1 - c)), 1) := by
    unfold gamma_coefficients compare_cophenetic
    dsimp only
    rw [pearson_correlation1_self _ hdists, pearson_correlation1_self _ hdend]
  have hpsi : psi_coefficient (compute_tf_tg_corrs e n syms tftg).1
      (compute_tf_tg_corrs e n syms tftg).1 .nb_genes = .ok 1 :=
    psi_coefficient_self _ htf htf0
  have hphi : phi_coefficient (compute_tf_tg_corrs e n syms tftg).2
      (compute_tf_tg_corrs e n syms tftg).2 .nb_genes = .ok 1 :=
    phi_coefficient_self _ htg htg0
  have homg : omega_coefficient e n g e n g syms tftg pv rj = .ok 1 :=
    omega_coefficient_self e n g syms tftg pv rj homega
  simp only [compute_scores, hgamma, hpsi, hphi, homg, sub_self]
  norm_num
  rfl

noncomputable section

/-- Concrete 2-sample, 3-gene witness matrix: columns `[1, -1]`, `[1, -1]`
and `[-1, 1]` (each zero-mean with variance 1). -/
def eW : ℕ → ℕ → ℝ :=
  fun s j => if s = 0 then (if j = 2 then -1 else 1) else (if j = 2 then 1 else -1)

/-- Concrete linkage oracle: ignores its input and returns the 3-leaf
complete-linkage matrix merging leaves 0 and 1 at height 1/2, then the
result with leaf 2 at height 1. -/
def linkW : List ℝ → List LinkRow := fun _ => [(0, 1, (1 : ℝ)/2, 2), (3, 2, 1, 3)]

/-- Concrete cophenet oracle (only its determinism matters). -/
def cophW : List LinkRow → List ℝ → ℝ := fun _ _ => 0

/-- Concrete rank-sum oracle: the p-value is the sum of the target-gene
values of the sample. -/
def pvW : List ℝ → List ℝ → ℝ := fun tg _ => tg.sum

/-- Concrete Benjamini–Hochberg oracle: reject where the p-value is
positive (one flag per p-value). -/
def rjW : List ℝ → List Bool := fun ps => ps.map (fun x => if 0 < x then true else false)

end

lemma eW_col0 : col eW 2 0 = [1, -1] := rfl

lemma eW_col1 : col eW 2 1 = [1, -1] := rfl

lemma eW_col2 : col eW 2 2 = [-1, 1] := rfl

lemma mean_pm : npMean [(1 : ℝ), -1] = 0 := by
  norm_num [npMean, npSum]

lemma var_pm : npVar [(1 : ℝ), -1] = 1 := by
  norm_num [npVar, npMean, npSum]

lemma std_pm : npStd [(1 : ℝ), -1] = 1 := by
  rw [npStd, var_pm, Real.sqrt_one]

lemma mean_mp : npMean [(-1 : ℝ), 1] = 0 := by
  norm_num [npMean, npSum]

lemma var_mp : npVar [(-1 : ℝ), 1] = 1 := by
  norm_num [npVar, npMean, npSum]

lemma std_mp : npStd [(-1 : ℝ), 1] = 1 := by
  rw [npStd, var_mp, Real.sqrt_one]

lemma std_eW (s j : ℕ) (hj : j < 3) : standardize eW 2 s j = eW s j := by
  unfold standardize
  interval_cases j
  · rw [eW_col0, mean_pm, std_pm, sub_zero, div_one]
  · rw [eW_col1, mean_pm, std_pm, sub_zero, div_one]
  · rw [eW_col2, mean_mp, std_mp, sub_zero, div_one]

lemma pearson_eW (i j : ℕ) (hi : i < 3) (hj : j < 3) :
    pearson_correlation eW eW 2 i j = (eW 0 i * eW 0 j + eW 1 i * eW 1 j) / 2 := by
  unfold pearson_correlation npSum
  rw [show List.range 2 = [0, 1] from rfl]
  rw [List.map_cons, List.map_cons, List.map_nil, List.sum_cons, List.sum_cons, List.sum_nil]
  rw [std_eW 0 i hi, std_eW 0 j hj, std_eW 1 i hi, std_eW 1 j hj]
  ring

lemma pearson_eW_01 : pearson_correlation eW eW 2 0 1 = 1 := by
  rw [pearson_eW 0 1 (by norm_num) (by norm_num)]
  norm_num [eW]

lemma pearson_eW_02 : pearson_correlation eW eW 2 0 2 = -1 := by
  rw [pearson_eW 0 2 (by norm_num) (by norm_num)]
  norm_num [eW]

lemma pearson_eW_12 : pearson_correlation eW eW 2 1 2 = -1 := by
  rw [pearson_eW 1 2 (by norm_num) (by norm_num)]
  norm_num [eW]

lemma pearson_eW_10 : pearson_correlation eW eW 2 1 0 = 1 := by
  rw [pearson_eW 1 0 (by norm_num) (by norm_num)]
  norm_num [eW]

lemma pearson_eW_20 : pearson_correlation eW eW 2 2 0 = -1 := by
  rw [pearson_eW 2 0 (by norm_num) (by norm_num)]
  norm_num [eW]

lemma pearson_eW_21 : pearson_correlation eW eW 2 2 1 = -1 := by
  rw [pearson_eW 2 1 (by norm_num) (by norm_num)]
  norm_num [eW]

lemma phi_weight_one : phi_weight 1 = 1 := by
  rw [show (1 : ℕ) = (1 + 1) * 1 / 2 from by norm_num, phi_weight_closed_form 1]
  norm_num

/-- Counterexample to claim C3 as stated: for the TF `0` with exactly two
present target genes (`1` and `2`), `compute_tf_tg_corrs` produces the
one-element TG–TG list `[-1]` — not an empty list — and `phi_coefficient`
does not exclude it: aggregating over that single pair adds weight `1` and
total `1`, so neither the total weight nor the total sum is unchanged.
(The TG–TG list is empty, and the TF excluded, for exactly ONE present
target, not two.) -/
theorem two_target_tf_not_excluded :
    (compute_tf_tg_corrs eW 2 [0, 1, 2] [(0, [1, 2])]).2 = [[-1]] ∧
    phi_sums [([(-1 : ℝ)], [-1])] .nb_genes = (1, 1) ∧ (1 : ℝ) ≠ 0 := by
  refine ⟨?_, ?_, one_ne_zero⟩
  · rw [show (compute_tf_tg_corrs eW 2 [0, 1, 2] [(0, [1, 2])]).2
        = [[pearson_correlation eW eW 2 1 2]] from rfl, pearson_eW_12]
  · unfold phi_sums
    rw [List.foldl_cons, List.foldl_nil]
    have hdot : npDot [(-1 : ℝ)] [(-1 : ℝ)] ≠ 0 := by
      rw [npDot_self]
      norm_num
    have hcos : cosine_similarity [(-1 : ℝ)] [-1] = 1 := cosine_similarity_self _ hdot
    rw [if_pos (by norm_num)]
    simp only [phi_weight_of, List.length_cons, List.length_nil, hcos]
    norm_num [phi_weight_one]

/-- Claim C3 (amended): for every TF with exactly ONE present target gene,
the TG–TG list produced for it by `compute_tf_tg_corrs` is empty (the
condensed upper-diagonal of a 1×1 matrix), and `phi_coefficient` excludes
such an entry from the weighted aggregation: inserting the pair `([], cz)`
anywhere leaves both the total weight and the total sum unchanged. -/
theorem single_target_tf_excluded (e : ℕ → ℕ → ℝ) (n : ℕ) (syms tgs : List α)
    (h : (tg_idxs syms tgs).length = 1) (l1 l2 : List (List ℝ × List ℝ)) (cz : List ℝ)
    (wt : WeightsType) :
    tg_tg_entry e n syms tgs = [] ∧
    phi_sums (l1 ++ ([], cz) :: l2) wt = phi_sums (l1 ++ l2) wt := by
  constructor
  · unfold tg_tg_entry correlations_list
    rw [h]
    rfl
  · unfold phi_sums
    rw [List.foldl_append, List.foldl_append, List.foldl_cons]
    norm_num

/-- Witness for the amended claim C3 at the concrete symbols `[0, 1]` and
target list `[1]` (one present target). -/
theorem single_target_tf_excluded_witness :
    (tg_idxs [0, 1] [1]).length = 1 ∧
    (tg_tg_entry eW 2 [0, 1] [1] = [] ∧
     phi_sums ([] ++ ([], []) :: []) .nb_genes = phi_sums ([] ++ []) .nb_genes) := by
  have h : (tg_idxs [0, 1] [1]).length = 1 := rfl
  exact ⟨h, single_target_tf_excluded eW 2 [0, 1] [1] h [] [] [] .nb_genes⟩

lemma fcrW : find_chip_rates eW 2 3 [0, 1, 2] [(1, [0, 2]), (2, [0, 1])] pvW rjW
    = ([0, 1/2], [2, 2]) := by
  rw [find_chip_rates_eq]
  rw [show ([(1, [0, 2]), (2, [0, 1])] : List (ℕ × List ℕ)).filter
      (fun p => decide (tf_eligible [0, 1, 2] p)) = [(1, [0, 2]), (2, [0, 1])] from rfl]
  have hpv1 : p_values_of eW 2 3 [0, 1, 2] pvW (1, [0, 2]) = [0, 0] := by
    unfold p_values_of pvW sample_vals
    rw [show List.range 2 = [0, 1] from rfl]
    simp only [List.map_cons, List.map_nil]
    rw [show tg_idxs [0, 1, 2] ((1, [0, 2]) : ℕ × List ℕ).2 = [0, 2] from rfl]
    simp only [List.map_cons, List.map_nil]
    rw [std_eW 0 0 (by norm_num), std_eW 0 2 (by norm_num),
      std_eW 1 0 (by norm_num), std_eW 1 2 (by norm_num)]
    norm_num [eW]
  have hpv2 : p_values_of eW 2 3 [0, 1, 2] pvW (2, [0, 1]) = [2, -2] := by
    unfold p_values_of pvW sample_vals
    rw [show List.range 2 = [0, 1] from rfl]
    simp only [List.map_cons, List.map_nil]
    rw [show tg_idxs [0, 1, 2] ((2, [0, 1]) : ℕ × List ℕ).2 = [0, 1] from rfl]
    simp only [List.map_cons, List.map_nil]
    rw [std_eW 0 0 (by norm_num), std_eW 0 1 (by norm_num),
      std_eW 1 0 (by norm_num), std_eW 1 1 (by norm_num)]
    norm_num [eW]
  have hcr1 : chip_rate_of eW 2 3 [0, 1, 2] pvW rjW (1, [0, 2]) = 0 := by
    unfold chip_rate_of
    rw [hpv1]
    rw [show rjW [(0 : ℝ), 0] = [false, false] from by
      unfold rjW
      simp only [List.map_cons, List.map_nil]
      rw [if_neg (lt_irrefl (0 : ℝ))]]
    norm_num
  have hcr2 : chip_rate_of eW 2 3 [0, 1, 2] pvW rjW (2, [0, 1]) = 1/2 := by
    unfold chip_rate_of
    rw [hpv2]
    rw [show rjW [(2 : ℝ), -2] = [true, false] from by
      unfold rjW
      simp only [List.map_cons, List.map_nil]
      rw [if_pos (by norm_num : (0 : ℝ) < 2), if_neg (by norm_num : ¬ (0 : ℝ) < -2)]]
    rw [show List.count true [true, false] = 1 from rfl]
    norm_num
  simp only [List.map_cons, List.map_nil, hcr1, hcr2]
  rfl

/-- Witness for claim C1 at the concrete 2-sample, 3-gene matrix `eW`, the
regulatory map `{1 ↦ [0, 2], 2 ↦ [0, 1]}` and the concrete oracles
`linkW`, `cophW`, `pvW`, `rjW`: all the degeneracy-excluding hypotheses
hold and the score vector is exactly `[1, 1, 0, 1, 1, 1]`. -/
theorem compute_scores_self_witness :
    (∀ j, j < 3 → npVar (col eW 2 j) ≠ 0) ∧
    npVar ((correlations_list eW eW 2 3).map (fun c => 1 - c)) ≠ 0 ∧
    npVar (dendrogram_distance (hierarchical_clustering eW 2 3 linkW)) ≠ 0 ∧
    (∀ c ∈ (compute_tf_tg_corrs eW 2 [0, 1, 2] [(1, [0, 2]), (2, [0, 1])]).1,
      npDot c c ≠ 0) ∧
    (compute_tf_tg_corrs eW 2 [0, 1, 2] [(1, [0, 2]), (2, [0, 1])]).1 ≠ [] ∧
    (∀ c ∈ (compute_tf_tg_corrs eW 2 [0, 1, 2] [(1, [0, 2]), (2, [0, 1])]).2,
      c ≠ [] → npDot c c ≠ 0) ∧
    (∃ c ∈ (compute_tf_tg_corrs eW 2 [0, 1, 2] [(1, [0, 2]), (2, [0, 1])]).2, c ≠ []) ∧
    weighted_var (find_chip_rates eW 2 3 [0, 1, 2] [(1, [0, 2]), (2, [0, 1])] pvW rjW).1
      (find_chip_rates eW 2 3 [0, 1, 2] [(1, [0, 2]), (2, [0, 1])] pvW rjW).2
      (weighted_mean (find_chip_rates eW 2 3 [0, 1, 2] [(1, [0, 2]), (2, [0, 1])] pvW rjW).1
        (find_chip_rates eW 2 3 [0, 1, 2] [(1, [0, 2]), (2, [0, 1])] pvW rjW).2) ≠ 0 ∧
    compute_scores eW 2 eW 2 3 [0, 1, 2] [(1, [0, 2]), (2, [0, 1])] linkW cophW pvW rjW
      = .ok [1, 1, 0, 1, 1, 1] := by
  have hctc1 : (compute_tf_tg_corrs eW 2 [0, 1, 2] [(1, [0, 2]), (2, [0, 1])]).1
      = [[pearson_correlation eW eW 2 1 0, pearson_correlation eW eW 2 1 2],
         [pearson_correlation eW eW 2 2 0, pearson_correlation eW eW 2 2 1]] := rfl
  have hctc2 : (compute_tf_tg_corrs eW 2 [0, 1, 2] [(1, [0, 2]), (2, [0, 1])]).2
      = [[pearson_correlation eW eW 2 0 2], [pearson_correlation eW eW 2 0 1]] := rfl
  have hctc1v : (compute_tf_tg_corrs eW 2 [0, 1, 2] [(1, [0, 2]), (2, [0, 1])]).1
      = [[1, -1], [-1, -1]] := by
    rw [hctc1, pearson_eW_10, pearson_eW_12, pearson_eW_20, pearson_eW_21]
  have hctc2v : (compute_tf_tg_corrs eW 2 [0, 1, 2] [(1, [0, 2]), (2, [0, 1])]).2
      = [[-1], [1]] := by
    rw [hctc2, pearson_eW_02, pearson_eW_01]
  have h1 : ∀ j, j < 3 → npVar (col eW 2 j) ≠ 0 := by
    intro j hj
    interval_cases j
    · rw [eW_col0, var_pm]; norm_num
    · rw [eW_col1, var_pm]; norm_num
    · rw [eW_col2, var_mp]; norm_num
  have h2 : npVar ((correlations_list eW eW 2 3).map (fun c => 1 - c)) ≠ 0 := by
    rw [show correlations_list eW eW 2 3
        = [pearson_correlation eW eW 2 0 1, pearson_correlation eW eW 2 0 2,
           pearson_correlation eW eW 2 1 2] from rfl,
      pearson_eW_01, pearson_eW_02, pearson_eW_12]
    simp only [List.map_cons, List.map_nil]
    norm_num [npVar, npMean, npSum]
  have h3 : npVar (dendrogram_distance (hierarchical_clustering eW 2 3 linkW)) ≠ 0 := by
    rw [show dendrogram_distance (hierarchical_clustering eW 2 3 linkW)
        = [1/2, 1, 1] from rfl]
    norm_num [npVar, npMean, npSum]
  have h4 : ∀ c ∈ (compute_tf_tg_corrs eW 2 [0, 1, 2] [(1, [0, 2]), (2, [0, 1])]).1,
      npDot c c ≠ 0 := by
    intro c hc
    rw [hctc1v] at hc
    fin_cases hc <;> rw [npDot_self] <;> norm_num
  have h5 : (compute_tf_tg_corrs eW 2 [0, 1, 2] [(1, [0, 2]), (2, [0, 1])]).1 ≠ [] := by
    rw [hctc1v]
    simp
  have h6 : ∀ c ∈ (compute_tf_tg_corrs eW 2 [0, 1, 2] [(1, [0, 2]), (2, [0, 1])]).2,
      c ≠ [] → npDot c c ≠ 0 := by
    intro c hc _
    rw [hctc2v] at hc
    fin_cases hc <;> rw [npDot_self] <;> norm_num
  have h7 : ∃ c ∈ (compute_tf_tg_corrs eW 2 [0, 1, 2] [(1, [0, 2]), (2, [0, 1])]).2,
      c ≠ [] := by
    rw [hctc2v]
    exact ⟨[-1], by simp, by simp⟩
  have h8 : weighted_var
      (find_chip_rates eW 2 3 [0, 1, 2] [(1, [0, 2]), (2, [0, 1])] pvW rjW).1
      (find_chip_rates eW 2 3 [0, 1, 2] [(1, [0, 2]), (2, [0, 1])] pvW rjW).2
      (weighted_mean (find_chip_rates eW 2 3 [0, 1, 2] [(1, [0, 2]), (2, [0, 1])] pvW rjW).1
        (find_chip_rates eW 2 3 [0, 1, 2] [(1, [0, 2]), (2, [0, 1])] pvW rjW).2) ≠ 0 := by
    rw [fcrW]
    have hwm : weighted_mean ([0, 1/2] : List ℝ) [2, 2] = 1/4 := by
      unfold weighted_mean npSum
      rw [show List.zip ([0, 1/2] : List ℝ) ([2, 2] : List ℕ) = [(0, 2), (1/2, 2)] from rfl]
      norm_num
    rw [show (([0, 1/2], [2, 2]) : List ℝ × List ℕ).1 = [0, 1/2] from rfl,
      show (([0, 1/2], [2, 2]) : List ℝ × List ℕ).2 = [2, 2] from rfl, hwm]
    unfold weighted_var npSum
    rw [show List.zip ([0, 1/2] : List ℝ) ([2, 2] : List ℕ) = [(0, 2), (1/2, 2)] from rfl]
    norm_num
  exact ⟨h1, h2, h3, h4, h5, h6, h7, h8,
    compute_scores_self eW 2 3 [0, 1, 2] [(1, [0, 2]), (2, [0, 1])] linkW cophW pvW rjW
      h1 h2 h3 h4 h5 h6 h7 h8⟩

end AdvGene
